import Mathlib

/-!
Verification of the task scheduler in TaskScheduler.py.

The program works on Python values (dictionaries, lists, strings, numbers,
booleans).  We embed those as the inductive type `PyVal`.  Python integer and
boolean values are modelled (`isinstance(True, int)` holds in Python, so
booleans count as numbers); Python float values are outside the model.

Recursive functions over `PyVal` descend through dictionary lookups, which is
not structural recursion, so each recursive function takes an explicit fuel
argument; the public wrapper supplies `Nat.succ (pySize t)` fuel, which is
proved sufficient by the fuel-congruence lemmas below.
-/

/-- A Python value: None, bool, int, str, list, or dict with string keys. -/
inductive PyVal : Type where
  | pynone : PyVal
  | bool : Bool → PyVal
  | int : Int → PyVal
  | str : String → PyVal
  | list : List PyVal → PyVal
  | dict : List (String × PyVal) → PyVal

mutual

/-- Size of a Python value, used as the fuel bound for the recursive
functions below. -/
def pySize : PyVal → Nat
  | PyVal.pynone => 1
  | PyVal.bool _ => 1
  | PyVal.int _ => 1
  | PyVal.str _ => 1
  | PyVal.list xs => 1 + pySizeList xs
  | PyVal.dict kvs => 1 + pySizeKVs kvs

/-- Size of a list of Python values. -/
def pySizeList : List PyVal → Nat
  | [] => 0
  | t :: ts => 1 + pySize t + pySizeList ts

/-- Size of a key-value list. -/
def pySizeKVs : List (String × PyVal) → Nat
  | [] => 0
  | (_, v) :: kvs => 1 + pySize v + pySizeKVs kvs

end

/-- Python dictionary lookup (`d[k]` / `k in d` / `d.get(k)`). -/
def dget : List (String × PyVal) → String → Option PyVal
  | [], _ => Option.none
  | (k, v) :: kvs, key => if k = key then some v else dget kvs key

/-- The `isinstance(x, dict)` check. -/
def isDict : PyVal → Bool
  | PyVal.dict _ => true
  | _ => false

/-- The `isinstance(x, (int, float))` check.  In Python `bool` is a subclass of `int`,
so boolean values pass this check.  (Float values are outside the model.) -/
def isNumber : PyVal → Bool
  | PyVal.int _ => true
  | PyVal.bool _ => true
  | _ => false

/-- The numeric value of a Python bool (`True == 1`, `False == 0`). -/
def boolInt (b : Bool) : Int := cond b 1 0

/-- The distinct failure outcomes of the program.  The first six correspond to
the six `ValueError` messages raised in TaskScheduler.py; `typeError`,
`attributeError` and `keyError` model the CPython exceptions that would arise
from comparing incomparable sort keys, calling `.get` on a non-dict, and a
missing subscript respectively. -/
inductive PyErr : Type where
  | notADict
  | missingOrInvalidName
  | invalidPriorityType
  | subtasksNotAList
  | hierarchyNotAList
  | topLevelNotDicts
  | typeError
  | attributeError
  | keyError
deriving DecidableEq, Repr

/-- Pointwise equality of two lists of values, given equality on elements. -/
def eqListWith (f : PyVal → PyVal → Bool) : List PyVal → List PyVal → Bool
  | [], [] => true
  | u :: us, v :: vs => f u v && eqListWith f us vs
  | _, _ => false

/-- Structural equality of two key-value lists, given equality on values.
Python dict equality is key-order insensitive; the difference is only
reachable through dict values nested inside list-valued sort keys, which no
valid input has. -/
def eqKVsWith (f : PyVal → PyVal → Bool) :
    List (String × PyVal) → List (String × PyVal) → Bool
  | [], [] => true
  | (k, u) :: us, (k2, v) :: vs => k == k2 && f u v && eqKVsWith f us vs
  | _, _ => false

/-- Python `==` on values, with explicit fuel. -/
def pyEqFuel : Nat → PyVal → PyVal → Bool
  | 0, _, _ => false
  | Nat.succ n, a, b =>
    match a, b with
    | PyVal.pynone, PyVal.pynone => true
    | PyVal.bool x, PyVal.bool y => x == y
    | PyVal.bool x, PyVal.int m => boolInt x == m
    | PyVal.int m, PyVal.bool x => m == boolInt x
    | PyVal.int m, PyVal.int k => m == k
    | PyVal.str s, PyVal.str r => s == r
    | PyVal.list xs, PyVal.list ys => eqListWith (fun u v => pyEqFuel n u v) xs ys
    | PyVal.dict xs, PyVal.dict ys => eqKVsWith (fun u v => pyEqFuel n u v) xs ys
    | _, _ => false

/-- Python `==` on values. -/
def pyEq (a b : PyVal) : Bool := pyEqFuel (Nat.succ (pySize a)) a b

/-- Lexicographic `<` on lists, Python style: skip equal prefixes using `==`,
then compare the first differing pair; a strict prefix is smaller. -/
def ltListWith (eq : PyVal → PyVal → Bool) (lt : PyVal → PyVal → Option Bool) :
    List PyVal → List PyVal → Option Bool
  | [], [] => some false
  | [], _ :: _ => some true
  | _ :: _, [] => some false
  | u :: us, v :: vs => if eq u v then ltListWith eq lt us vs else lt u v

/-- Python `<` on values, with explicit fuel.  `Option.none` models a CPython
`TypeError` (unsupported comparison).  Numbers (ints and bools) compare
numerically, strings lexicographically, lists lexicographically via `==` and
`<` on elements; every other combination is unsupported. -/
def pyLtFuel : Nat → PyVal → PyVal → Option Bool
  | 0, _, _ => Option.none
  | Nat.succ n, a, b =>
    match a, b with
    | PyVal.bool x, PyVal.bool y => some (decide (boolInt x < boolInt y))
    | PyVal.bool x, PyVal.int m => some (decide (boolInt x < m))
    | PyVal.int m, PyVal.bool x => some (decide (m < boolInt x))
    | PyVal.int m, PyVal.int k => some (decide (m < k))
    | PyVal.str s, PyVal.str r => some (decide (s < r))
    | PyVal.list xs, PyVal.list ys =>
      ltListWith (fun u v => pyEqFuel n u v) (fun u v => pyLtFuel n u v) xs ys
    | _, _ => Option.none

/-- Python `<` on values (`Option.none` = `TypeError`). -/
def pyLt (a b : PyVal) : Option Bool := pyLtFuel (Nat.succ (pySize a)) a b

/-- The boolean reading of `pyLt`; only consulted after comparability of all
keys has been established, so the default for the `TypeError` case is never
observable. -/
def pyLtB (a b : PyVal) : Bool := (pyLt a b).getD false

/-- One step of a stable descending insertion: `a` moves past exactly the
elements it is strictly below. -/
def insertDesc (lt : PyVal → PyVal → Bool) (a : PyVal) : List PyVal → List PyVal
  | [] => [a]
  | b :: l => if lt a b then b :: insertDesc lt a l else a :: b :: l

/-- Stable descending insertion sort.  This is the specification of CPython
`sorted(..., reverse=True)`: descending by key, ties kept in input order. -/
def sortDesc (lt : PyVal → PyVal → Bool) : List PyVal → List PyVal
  | [] => []
  | a :: l => insertDesc lt a (sortDesc lt l)

/-- The sort key the program reads from a node: the priority field with
default 0 on a dict; junk on a non-dict (where CPython would raise
AttributeError; the traversal only ever sorts lists of dicts). -/
def priKeyTotal : PyVal → PyVal
  | PyVal.dict kvs => (dget kvs "priority").getD (PyVal.int 0)
  | _ => PyVal.int 0

/-- The integer reading of a priority key (bools count as 0 or 1). -/
def numVal : PyVal → Int
  | PyVal.int m => m
  | PyVal.bool b => boolInt b
  | _ => 0

/-- The integer sort key of a node. -/
def keyZ (t : PyVal) : Int := numVal (priKeyTotal t)

/-- The comparator `sorted(..., key=lambda x: x.get("priority", 0), reverse=True)`
uses between two elements. -/
def ltPri (x y : PyVal) : Bool := pyLtB (priKeyTotal x) (priKeyTotal y)

/-- Extraction of one sort key, CPython-style: `x.get` on a non-dict raises
AttributeError. -/
def getKey : PyVal → Except PyErr PyVal
  | PyVal.dict kvs => Except.ok ((dget kvs "priority").getD (PyVal.int 0))
  | _ => Except.error PyErr.attributeError

/-- Extraction of all sort keys (CPython computes every key before comparing). -/
def getKeys : List PyVal → Except PyErr (List PyVal)
  | [] => Except.ok []
  | t :: ts =>
    match getKey t with
    | Except.error e => Except.error e
    | Except.ok k =>
      match getKeys ts with
      | Except.error e => Except.error e
      | Except.ok ks => Except.ok (k :: ks)

/-- All pairs of keys are comparable.  CPython raises `TypeError` during the
sort exactly when it compares an incomparable pair; for the scalar keys of
every input relevant here that is equivalent to this all-pairs check. -/
def allComparable : List PyVal → Bool
  | [] => true
  | k :: ks => ks.all (fun k2 => (pyLt k k2).isSome) && allComparable ks

/-- Runs a validator over each element of a list in order, stopping at the
first error (the `for subtask in ...: validate_task(subtask)` loop). -/
def valList (f : PyVal → Except PyErr Unit) : List PyVal → Except PyErr Unit
  | [] => Except.ok ()
  | u :: us =>
    match f u with
    | Except.error e => Except.error e
    | Except.ok _ => valList f us

/-- The subtasks clause of `validate_task`: if the field is present it must be
a list, and every element is validated in order. -/
def checkSubtasks (f : PyVal → Except PyErr Unit) (kvs : List (String × PyVal)) :
    Except PyErr Unit :=
  match dget kvs "subtasks" with
  | some (PyVal.list ts) => valList f ts
  | some _ => Except.error PyErr.subtasksNotAList
  | Option.none => Except.ok ()

/-- The body of `validate_task`, with explicit fuel: the task must be a dict, its name
field must be present and a string, its priority field (if present) must be
numeric, and its subtasks field (if present) must be a list of recursively
valid tasks. -/
def validateFuel : Nat → PyVal → Except PyErr Unit
  | 0, _ => Except.error PyErr.typeError
  | Nat.succ n, t =>
    match t with
    | PyVal.dict kvs =>
      match dget kvs "name" with
      | some (PyVal.str _) =>
        match dget kvs "priority" with
        | some p =>
          if isNumber p then checkSubtasks (fun u => validateFuel n u) kvs
          else Except.error PyErr.invalidPriorityType
        | Option.none => checkSubtasks (fun u => validateFuel n u) kvs
      | _ => Except.error PyErr.missingOrInvalidName
    | _ => Except.error PyErr.notADict

/-- The function `validate_task` from TaskScheduler.py. -/
def validate_task (t : PyVal) : Except PyErr Unit := validateFuel (Nat.succ (pySize t)) t

/-- Runs a traversal over each element of a list in order, concatenating the
results, stopping at the first error (the `for ...: tasks.extend(...)` loop). -/
def travList (f : PyVal → Except PyErr (List String)) :
    List PyVal → Except PyErr (List String)
  | [] => Except.ok []
  | u :: us =>
    match f u with
    | Except.error e => Except.error e
    | Except.ok l =>
      match travList f us with
      | Except.error e => Except.error e
      | Except.ok r => Except.ok (l ++ r)

/-- Appending the own name of the task (`tasks.append`).  After `validate_task` has succeeded
the name is always a present string, so the error branch is unreachable (in
CPython a missing key would raise KeyError). -/
def appendOwnName (kvs : List (String × PyVal)) (sub : List String) :
    Except PyErr (List String) :=
  match dget kvs "name" with
  | some (PyVal.str s) => Except.ok (sub ++ [s])
  | _ => Except.error PyErr.keyError

/-- The subtasks block of `traverse_and_schedule`: if the field is present,
sort the subtasks by stable descending priority (CPython computes all sort
keys first and raises TypeError on an incomparable pair) and flatten each in
order; an absent field contributes nothing.  After a successful
`validate_task` the subtasks are a list of dicts with numeric priorities, so
the `typeError` and `attributeError` branches are unreachable. -/
def schedSubtasks (f : PyVal → Except PyErr (List String))
    (kvs : List (String × PyVal)) : Except PyErr (List String) :=
  match dget kvs "subtasks" with
  | some (PyVal.list ts) =>
    match getKeys ts with
    | Except.error e => Except.error e
    | Except.ok ks =>
      if allComparable ks then travList f (sortDesc ltPri ts)
      else Except.error PyErr.typeError
  | some _ => Except.error PyErr.typeError
  | Option.none => Except.ok []

/-- The body of `traverse_and_schedule`, with explicit fuel: validate the whole subtree,
then flatten the subtasks in stable descending priority order, then append
the own name.  The `notADict` branch is unreachable after a successful
`validate_task`. -/
def traverseFuel : Nat → PyVal → Except PyErr (List String)
  | 0, _ => Except.error PyErr.typeError
  | Nat.succ n, t =>
    match validate_task t with
    | Except.error e => Except.error e
    | Except.ok _ =>
      match t with
      | PyVal.dict kvs =>
        match schedSubtasks (fun u => traverseFuel n u) kvs with
        | Except.error e => Except.error e
        | Except.ok sub => appendOwnName kvs sub
      | _ => Except.error PyErr.notADict

/-- The function `traverse_and_schedule` from TaskScheduler.py. -/
def traverse_and_schedule (t : PyVal) : Except PyErr (List String) :=
  traverseFuel (Nat.succ (pySize t)) t

/-- The function `schedule_tasks` from TaskScheduler.py: the hierarchy must be a list of
dicts; it is sorted by descending priority (CPython computes all sort keys
first and raises TypeError on an incomparable pair), and each top-level task
is traversed in that order, concatenating the results. -/
def schedule_tasks (task_hierarchy : PyVal) : Except PyErr (List String) :=
  match task_hierarchy with
  | PyVal.list ts =>
    if ts.all isDict then
      match getKeys ts with
      | Except.error e => Except.error e
      | Except.ok ks =>
        if allComparable ks then travList traverse_and_schedule (sortDesc ltPri ts)
        else Except.error PyErr.typeError
    else Except.error PyErr.topLevelNotDicts
  | _ => Except.error PyErr.hierarchyNotAList

/-- The name of a node (junk on nodes that fail validation). -/
def nameOf : PyVal → String
  | PyVal.dict kvs =>
    match dget kvs "name" with
    | some (PyVal.str s) => s
    | _ => ""
  | _ => ""

/-- The subtasks list of a node, when present and a list. -/
def getSubtasks : PyVal → Option (List PyVal)
  | PyVal.dict kvs =>
    match dget kvs "subtasks" with
    | some (PyVal.list ts) => some ts
    | _ => Option.none
  | _ => Option.none

/-- Membership of a node in the subtree rooted at another node: `Descend t v`
holds when `v` is `t` itself or a node of the subtree below `t` reached
through subtasks fields. -/
inductive Descend : PyVal → PyVal → Prop where
  | refl (t : PyVal) : Descend t t
  | step (t u v : PyVal) (cs : List PyVal) :
      getSubtasks t = some cs → u ∈ cs → Descend u v → Descend t v

theorem pySize_pos (t : PyVal) : 0 < pySize t := by
  cases t <;> simp [pySize]

theorem dget_pySizeKVs {kvs : List (String × PyVal)} {key : String} {v : PyVal}
    (h : dget kvs key = some v) : pySize v < pySizeKVs kvs := by
  induction kvs with
  | nil => simp [dget] at h
  | cons kv rest ih =>
    obtain ⟨k, w⟩ := kv
    simp only [dget] at h
    by_cases hk : k = key
    · simp only [hk, if_pos rfl] at h
      cases h
      simp [pySizeKVs]
      omega
    · simp only [if_neg hk] at h
      have := ih h
      simp [pySizeKVs]
      omega

theorem dget_dict_pySize {kvs : List (String × PyVal)} {key : String} {v : PyVal}
    (h : dget kvs key = some v) : pySize v < pySize (PyVal.dict kvs) := by
  have := dget_pySizeKVs h
  simp [pySize]
  omega

theorem mem_pySizeList {u : PyVal} {ts : List PyVal} (h : u ∈ ts) :
    pySize u < pySizeList ts := by
  induction ts with
  | nil => cases h
  | cons t rest ih =>
    rcases List.mem_cons.mp h with rfl | h2
    · simp [pySizeList]; omega
    · have := ih h2
      simp [pySizeList]
      omega

theorem getSubtasks_pySize {t : PyVal} {cs : List PyVal}
    (h : getSubtasks t = some cs) : pySizeList cs < pySize t := by
  cases t <;> simp [getSubtasks] at h
  next kvs =>
  rcases hd : dget kvs "subtasks" with _ | v
  · rw [hd] at h; simp at h
  · rw [hd] at h
    cases v <;> simp at h
    next ts =>
    cases h
    have := dget_dict_pySize hd
    simp [pySize] at this ⊢
    omega

theorem insertDesc_perm (lt : PyVal → PyVal → Bool) (a : PyVal) (l : List PyVal) :
    List.Perm (insertDesc lt a l) (a :: l) := by
  induction l with
  | nil => exact List.Perm.refl _
  | cons b m ih =>
    simp only [insertDesc]
    by_cases h : lt a b = true
    · simp only [h, if_pos rfl]
      exact (ih.cons b).trans (List.Perm.swap a b m)
    · simp only [h]
      simp

theorem sortDesc_perm (lt : PyVal → PyVal → Bool) (l : List PyVal) :
    List.Perm (sortDesc lt l) l := by
  induction l with
  | nil => exact List.Perm.refl _
  | cons a m ih =>
    simp only [sortDesc]
    exact (insertDesc_perm lt a (sortDesc lt m)).trans (ih.cons a)

theorem mem_sortDesc {lt : PyVal → PyVal → Bool} {l : List PyVal} {x : PyVal} :
    x ∈ sortDesc lt l ↔ x ∈ l :=
  (sortDesc_perm lt l).mem_iff

theorem insertDesc_congr {lt lt2 : PyVal → PyVal → Bool} (a : PyVal) {l : List PyVal}
    (h : ∀ y ∈ l, lt a y = lt2 a y) : insertDesc lt a l = insertDesc lt2 a l := by
  induction l with
  | nil => rfl
  | cons b m ih =>
    simp only [insertDesc]
    rw [h b (List.mem_cons_self b m), ih (fun y hy => h y (List.mem_cons_of_mem b hy))]

theorem sortDesc_congr {lt lt2 : PyVal → PyVal → Bool} {l : List PyVal}
    (h : ∀ x ∈ l, ∀ y ∈ l, lt x y = lt2 x y) : sortDesc lt l = sortDesc lt2 l := by
  induction l with
  | nil => rfl
  | cons a m ih =>
    simp only [sortDesc]
    rw [ih (fun x hx y hy => h x (List.mem_cons_of_mem a hx) y (List.mem_cons_of_mem a hy))]
    exact insertDesc_congr a (fun y hy =>
      h a (List.mem_cons_self a m) y
        (List.mem_cons_of_mem a (mem_sortDesc.mp hy)))

/-- The comparator as it behaves on numeric keys: strictly ascending on the
integer reading of the key. -/
def intLt (x y : PyVal) : Bool := decide (keyZ x < keyZ y)

theorem pyLt_num {a b : PyVal} (ha : isNumber a = true) (hb : isNumber b = true) :
    pyLt a b = some (decide (numVal a < numVal b)) := by
  cases a <;> simp [isNumber] at ha <;> cases b <;> simp [isNumber] at hb <;> rfl

theorem pyLt_num_isSome {a b : PyVal} (ha : isNumber a = true) (hb : isNumber b = true) :
    (pyLt a b).isSome = true := by
  rw [pyLt_num ha hb]; rfl

theorem ltPri_eq_intLt {x y : PyVal} (hx : isNumber (priKeyTotal x) = true)
    (hy : isNumber (priKeyTotal y) = true) : ltPri x y = intLt x y := by
  unfold ltPri intLt pyLtB keyZ
  rw [pyLt_num hx hy]
  rfl

theorem allComparable_of_num {ks : List PyVal} (h : ∀ k ∈ ks, isNumber k = true) :
    allComparable ks = true := by
  induction ks with
  | nil => rfl
  | cons k m ih =>
    simp only [allComparable, Bool.and_eq_true, List.all_eq_true]
    refine ⟨fun k2 hk2 => pyLt_num_isSome (h k (List.mem_cons_self k m))
      (h k2 (List.mem_cons_of_mem k hk2)), ih (fun k2 hk2 => h k2 (List.mem_cons_of_mem k hk2))⟩

theorem insertDesc_sorted {l : List PyVal} (a : PyVal)
    (h : l.Pairwise (fun x y => keyZ y ≤ keyZ x)) :
    (insertDesc intLt a l).Pairwise (fun x y => keyZ y ≤ keyZ x) := by
  induction l with
  | nil => simp [insertDesc]
  | cons b m ih =>
    rcases List.pairwise_cons.mp h with ⟨hb, hm⟩
    simp only [insertDesc]
    by_cases hab : intLt a b = true
    · simp only [hab, if_pos rfl]
      refine List.pairwise_cons.mpr ⟨?_, ih hm⟩
      intro y hy
      rcases List.mem_cons.mp ((insertDesc_perm intLt a m).mem_iff.mp hy) with rfl | hym
      · have : keyZ y < keyZ b := of_decide_eq_true hab
        omega
      · exact hb y hym
    · rw [if_neg hab]
      have hba : keyZ b ≤ keyZ a := by
        have : ¬ (keyZ a < keyZ b) := by
          intro hc
          exact hab (decide_eq_true hc)
        omega
      refine List.pairwise_cons.mpr ⟨?_, h⟩
      intro y hy
      rcases List.mem_cons.mp hy with rfl | hym
      · exact hba
      · have := hb y hym
        omega

theorem sortDesc_sorted (l : List PyVal) :
    (sortDesc intLt l).Pairwise (fun x y => keyZ y ≤ keyZ x) := by
  induction l with
  | nil => simp [sortDesc]
  | cons a m ih =>
    exact insertDesc_sorted a ih

theorem filter_insertDesc (p : PyVal → Bool) (a : PyVal) (l : List PyVal)
    (hp : ∀ x y, p x = true → p y = true → intLt x y = false) :
    (insertDesc intLt a l).filter p = ((a :: l).filter p) := by
  induction l with
  | nil => rfl
  | cons b m ih =>
    simp only [insertDesc]
    by_cases hab : intLt a b = true
    · rw [if_pos hab]
      by_cases hpa : p a = true
      · by_cases hpb : p b = true
        · exact absurd (hp a b hpa hpb) (by simp [hab])
        · simp only [List.filter_cons, hpa, hpb, if_pos rfl]
          simp only [Bool.false_eq_true, if_neg, ite_false]
          rw [ih]
          simp [List.filter_cons, hpa]
      · by_cases hpb : p b = true
        · simp only [List.filter_cons, hpa, hpb]
          rw [ih]
          simp [List.filter_cons, hpa]
        · simp only [List.filter_cons, hpa, hpb]
          rw [ih]
          simp [List.filter_cons, hpa]
    · rw [if_neg hab]

theorem filter_sortDesc (p : PyVal → Bool) (l : List PyVal)
    (hp : ∀ x y, p x = true → p y = true → intLt x y = false) :
    (sortDesc intLt l).filter p = l.filter p := by
  induction l with
  | nil => rfl
  | cons a m ih =>
    simp only [sortDesc]
    rw [filter_insertDesc p a (sortDesc intLt m) hp]
    simp only [List.filter_cons]
    rw [ih]

theorem sorted_mem_split {l : List PyVal} {a b : PyVal}
    (hs : l.Pairwise (fun x y => keyZ y ≤ keyZ x)) (ha : a ∈ l) (hb : b ∈ l)
    (hk : keyZ b < keyZ a) : ∃ p q r, l = p ++ a :: q ++ b :: r := by
  induction l with
  | nil => cases ha
  | cons x m ih =>
    rcases List.pairwise_cons.mp hs with ⟨hx, hm⟩
    rcases List.mem_cons.mp ha with rfl | ham
    · have hbm : b ∈ m := by
        rcases List.mem_cons.mp hb with rfl | h
        · omega
        · exact h
      obtain ⟨q, r, rfl⟩ := List.append_of_mem hbm
      exact ⟨[], q, r, by simp⟩
    · have hbm : b ∈ m := by
        rcases List.mem_cons.mp hb with rfl | h
        · have := hx a ham
          omega
        · exact h
      obtain ⟨p, q, r, rfl⟩ := ih hm ham hbm
      exact ⟨x :: p, q, r, rfl⟩

theorem sublist_pair_split {l : List PyVal} {a b : PyVal}
    (h : List.Sublist [a, b] l) : ∃ p q r, l = p ++ a :: q ++ b :: r := by
  induction l with
  | nil => simp at h
  | cons x m ih =>
    cases h with
    | cons _ h2 =>
      obtain ⟨p, q, r, rfl⟩ := ih h2
      exact ⟨x :: p, q, r, rfl⟩
    | cons₂ _ h2 =>
      obtain ⟨q, r, rfl⟩ := List.append_of_mem (List.singleton_sublist.mp h2)
      exact ⟨[], q, r, rfl⟩

theorem pair_sublist (a b : PyVal) (X Y Z : List PyVal) :
    List.Sublist [a, b] (X ++ a :: Y ++ b :: Z) := by
  have h1 : List.Sublist [b] (Y ++ b :: Z) := by
    apply List.singleton_sublist.mpr
    simp
  have h2 : List.Sublist [a, b] (a :: (Y ++ b :: Z)) := List.Sublist.cons₂ a h1
  have h3 : List.Sublist (a :: (Y ++ b :: Z)) (X ++ a :: Y ++ b :: Z) := by
    have := List.sublist_append_right X (a :: Y ++ b :: Z)
    simpa using this
  exact h2.trans h3

theorem pair_sublist_sortDesc {cs l1 l2 l3 : List PyVal} {a b : PyVal}
    (hsplit : cs = l1 ++ a :: l2 ++ b :: l3) (hk : keyZ a = keyZ b) :
    List.Sublist [a, b] (sortDesc intLt cs) := by
  have hp : ∀ x y, decide (keyZ x = keyZ a) = true → decide (keyZ y = keyZ a) = true →
      intLt x y = false := by
    intro x y hx hy
    have hx2 : keyZ x = keyZ a := of_decide_eq_true hx
    have hy2 : keyZ y = keyZ a := of_decide_eq_true hy
    unfold intLt
    simp only [decide_eq_false_iff_not]
    omega
  have hfil := filter_sortDesc (fun x => decide (keyZ x = keyZ a)) cs hp
  have hsub : List.Sublist [a, b] (cs.filter (fun x => decide (keyZ x = keyZ a))) := by
    subst hsplit
    simp only [List.filter_append, List.filter_cons, decide_eq_true_eq]
    rw [if_pos trivial, if_pos hk.symm]
    simpa [List.append_assoc] using
      pair_sublist a b (List.filter (fun x => decide (keyZ x = keyZ a)) l1)
        (List.filter (fun x => decide (keyZ x = keyZ a)) l2)
        (List.filter (fun x => decide (keyZ x = keyZ a)) l3)
  rw [← hfil] at hsub
  exact hsub.trans (List.filter_sublist _)

theorem valList_congr {f g : PyVal → Except PyErr Unit} {us : List PyVal}
    (h : ∀ u ∈ us, f u = g u) : valList f us = valList g us := by
  induction us with
  | nil => rfl
  | cons u rest ih =>
    simp only [valList]
    rw [h u (List.mem_cons_self u rest), ih (fun v hv => h v (List.mem_cons_of_mem u hv))]

theorem travList_congr {f g : PyVal → Except PyErr (List String)} {us : List PyVal}
    (h : ∀ u ∈ us, f u = g u) : travList f us = travList g us := by
  induction us with
  | nil => rfl
  | cons u rest ih =>
    simp only [travList]
    rw [h u (List.mem_cons_self u rest), ih (fun v hv => h v (List.mem_cons_of_mem u hv))]

theorem dget_subtasks_size {kvs : List (String × PyVal)} {ts : List PyVal}
    (h : dget kvs "subtasks" = some (PyVal.list ts))
    {u : PyVal} (hu : u ∈ ts) : pySize u + 1 < pySize (PyVal.dict kvs) := by
  have h1 := dget_dict_pySize h
  have h2 := mem_pySizeList hu
  simp [pySize] at h1 ⊢
  omega

theorem validateFuel_congr :
    ∀ n m t, pySize t ≤ n → pySize t ≤ m → validateFuel n t = validateFuel m t := by
  intro n
  induction n with
  | zero =>
    intro m t ht _
    have := pySize_pos t
    omega
  | succ n ih =>
    intro m t ht hm
    have hpos := pySize_pos t
    cases m with
    | zero => omega
    | succ m =>
      cases t with
      | dict kvs =>
        have hsub : checkSubtasks (fun u => validateFuel n u) kvs =
            checkSubtasks (fun u => validateFuel m u) kvs := by
          unfold checkSubtasks
          cases hst : dget kvs "subtasks" with
          | none => rfl
          | some w =>
            cases w <;> try rfl
            next ts =>
            refine valList_congr (fun u hu => ?_)
            have := dget_subtasks_size hst hu
            exact ih m u (by omega) (by omega)
        simp only [validateFuel]
        rw [hsub]
      | pynone => rfl
      | bool b => rfl
      | int k => rfl
      | str s => rfl
      | list l => rfl

theorem validateFuel_eq {n : Nat} {t : PyVal} (h : pySize t ≤ n) :
    validateFuel n t = validate_task t :=
  validateFuel_congr n (Nat.succ (pySize t)) t h (Nat.le_succ _)

theorem traverseFuel_congr :
    ∀ n m t, pySize t ≤ n → pySize t ≤ m → traverseFuel n t = traverseFuel m t := by
  intro n
  induction n with
  | zero =>
    intro m t ht _
    have := pySize_pos t
    omega
  | succ n ih =>
    intro m t ht hm
    have hpos := pySize_pos t
    cases m with
    | zero => omega
    | succ m =>
      cases t with
      | dict kvs =>
        have hsub : schedSubtasks (fun u => traverseFuel n u) kvs =
            schedSubtasks (fun u => traverseFuel m u) kvs := by
          unfold schedSubtasks
          cases hst : dget kvs "subtasks" with
          | none => rfl
          | some w =>
            cases w <;> try rfl
            next ts =>
            have htr : travList (fun u => traverseFuel n u) (sortDesc ltPri ts) =
                travList (fun u => traverseFuel m u) (sortDesc ltPri ts) := by
              refine travList_congr (fun u hu => ?_)
              have hu2 : u ∈ ts := mem_sortDesc.mp hu
              have := dget_subtasks_size hst hu2
              exact ih m u (by omega) (by omega)
            show (match getKeys ts with
              | Except.error e => Except.error e
              | Except.ok ks =>
                if allComparable ks then travList (fun u => traverseFuel n u) (sortDesc ltPri ts)
                else Except.error PyErr.typeError) =
              (match getKeys ts with
              | Except.error e => Except.error e
              | Except.ok ks =>
                if allComparable ks then travList (fun u => traverseFuel m u) (sortDesc ltPri ts)
                else Except.error PyErr.typeError)
            rw [htr]
        simp only [traverseFuel]
        rw [hsub]
      | pynone => rfl
      | bool b => rfl
      | int k => rfl
      | str s => rfl
      | list l => rfl

theorem traverseFuel_eq {n : Nat} {t : PyVal} (h : pySize t ≤ n) :
    traverseFuel n t = traverse_and_schedule t :=
  traverseFuel_congr n (Nat.succ (pySize t)) t h (Nat.le_succ _)

theorem validate_dict_eq (kvs : List (String × PyVal)) :
    validate_task (PyVal.dict kvs) =
      match dget kvs "name" with
      | some (PyVal.str _) =>
        match dget kvs "priority" with
        | some p =>
          if isNumber p then checkSubtasks validate_task kvs
          else Except.error PyErr.invalidPriorityType
        | Option.none => checkSubtasks validate_task kvs
      | _ => Except.error PyErr.missingOrInvalidName := by
  have hsub : checkSubtasks (fun u => validateFuel (pySize (PyVal.dict kvs)) u) kvs
      = checkSubtasks validate_task kvs := by
    unfold checkSubtasks
    cases hst : dget kvs "subtasks" with
    | none => rfl
    | some w =>
      cases w <;> try rfl
      next ts =>
      refine valList_congr (fun u hu => ?_)
      have := dget_subtasks_size hst hu
      exact validateFuel_eq (by omega)
  show (match dget kvs "name" with
    | some (PyVal.str _) =>
      match dget kvs "priority" with
      | some p =>
        if isNumber p then checkSubtasks (fun u => validateFuel (pySize (PyVal.dict kvs)) u) kvs
        else Except.error PyErr.invalidPriorityType
      | Option.none => checkSubtasks (fun u => validateFuel (pySize (PyVal.dict kvs)) u) kvs
    | _ => Except.error PyErr.missingOrInvalidName) = _
  rw [hsub]

theorem traverse_dict_eq (kvs : List (String × PyVal)) :
    traverse_and_schedule (PyVal.dict kvs) =
      match validate_task (PyVal.dict kvs) with
      | Except.error e => Except.error e
      | Except.ok _ =>
        match schedSubtasks traverse_and_schedule kvs with
        | Except.error e => Except.error e
        | Except.ok sub => appendOwnName kvs sub := by
  have hsub : schedSubtasks (fun u => traverseFuel (pySize (PyVal.dict kvs)) u) kvs
      = schedSubtasks traverse_and_schedule kvs := by
    unfold schedSubtasks
    cases hst : dget kvs "subtasks" with
    | none => rfl
    | some w =>
      cases w <;> try rfl
      next ts =>
      have htr : travList (fun u => traverseFuel (pySize (PyVal.dict kvs)) u)
          (sortDesc ltPri ts) = travList traverse_and_schedule (sortDesc ltPri ts) := by
        refine travList_congr (fun u hu => ?_)
        have hu2 : u ∈ ts := mem_sortDesc.mp hu
        have := dget_subtasks_size hst hu2
        exact traverseFuel_eq (by omega)
      show (match getKeys ts with
        | Except.error e => Except.error e
        | Except.ok ks =>
          if allComparable ks then
            travList (fun u => traverseFuel (pySize (PyVal.dict kvs)) u) (sortDesc ltPri ts)
          else Except.error PyErr.typeError) = _
      rw [htr]
  show (match validate_task (PyVal.dict kvs) with
    | Except.error e => Except.error e
    | Except.ok _ =>
      match schedSubtasks (fun u => traverseFuel (pySize (PyVal.dict kvs)) u) kvs with
      | Except.error e => Except.error e
      | Except.ok sub => appendOwnName kvs sub) = _
  rw [hsub]

theorem validate_nondict {t : PyVal} (h : isDict t = false) :
    validate_task t = Except.error PyErr.notADict := by
  cases t <;> simp [isDict] at h <;> rfl

theorem traverse_nondict {t : PyVal} (h : isDict t = false) :
    traverse_and_schedule t = Except.error PyErr.notADict := by
  cases t <;> simp [isDict] at h <;> rfl

theorem validate_ok_isDict {t : PyVal} (h : validate_task t = Except.ok ()) :
    isDict t = true := by
  cases t
  case dict kvs => rfl
  all_goals exact absurd h (by simp [validate_task, validateFuel])

theorem valList_ok {f : PyVal → Except PyErr Unit} {us : List PyVal}
    (h : valList f us = Except.ok ()) : ∀ u ∈ us, f u = Except.ok () := by
  induction us with
  | nil => intro u hu; cases hu
  | cons v rest ih =>
    intro u hu
    simp only [valList] at h
    cases hf : f v with
    | error e => simp [hf] at h
    | ok w =>
      cases w
      simp only [hf] at h
      rcases List.mem_cons.mp hu with rfl | hu2
      · exact hf
      · exact ih h u hu2

theorem validate_ok_name {kvs : List (String × PyVal)}
    (h : validate_task (PyVal.dict kvs) = Except.ok ()) :
    ∃ s, dget kvs "name" = some (PyVal.str s) := by
  rw [validate_dict_eq] at h
  cases hn : dget kvs "name" with
  | none => simp [hn] at h
  | some v =>
    cases v <;> simp [hn] at h
    exact ⟨_, rfl⟩

theorem validate_ok_check {kvs : List (String × PyVal)}
    (h : validate_task (PyVal.dict kvs) = Except.ok ()) :
    checkSubtasks validate_task kvs = Except.ok () := by
  rw [validate_dict_eq] at h
  cases hn : dget kvs "name" with
  | none => simp [hn] at h
  | some v =>
    cases v <;> simp [hn] at h
    cases hp : dget kvs "priority" with
    | none => simpa [hp] using h
    | some p =>
      by_cases hnum : isNumber p = true
      · simpa [hp, hnum] using h
      · simp [hp, hnum] at h

theorem validate_ok_priority {kvs : List (String × PyVal)}
    (h : validate_task (PyVal.dict kvs) = Except.ok ()) :
    isNumber (priKeyTotal (PyVal.dict kvs)) = true := by
  rw [validate_dict_eq] at h
  cases hn : dget kvs "name" with
  | none => simp [hn] at h
  | some v =>
    cases v <;> simp [hn] at h
    cases hp : dget kvs "priority" with
    | none => simp [priKeyTotal, hp, isNumber]
    | some p =>
      by_cases hnum : isNumber p = true
      · simp [priKeyTotal, hp, hnum]
      · simp [hp, hnum] at h

theorem validate_ok_priKey {u : PyVal} (h : validate_task u = Except.ok ()) :
    isNumber (priKeyTotal u) = true := by
  have hd := validate_ok_isDict h
  cases u <;> simp [isDict] at hd
  exact validate_ok_priority h

theorem validate_ok_subtasks_cases {kvs : List (String × PyVal)}
    (h : validate_task (PyVal.dict kvs) = Except.ok ()) :
    dget kvs "subtasks" = Option.none ∨
      ∃ ts, dget kvs "subtasks" = some (PyVal.list ts) := by
  have hc := validate_ok_check h
  unfold checkSubtasks at hc
  cases hst : dget kvs "subtasks" with
  | none => exact Or.inl rfl
  | some w =>
    cases w <;> simp [hst] at hc
    · exact Or.inr ⟨_, rfl⟩

theorem checkSubtasks_ok {kvs : List (String × PyVal)} {ts : List PyVal}
    (h : checkSubtasks validate_task kvs = Except.ok ())
    (hst : dget kvs "subtasks" = some (PyVal.list ts)) :
    ∀ u ∈ ts, validate_task u = Except.ok () := by
  simp only [checkSubtasks, hst] at h
  exact valList_ok h

theorem getSubtasks_inv {t : PyVal} {cs : List PyVal} (h : getSubtasks t = some cs) :
    ∃ kvs, t = PyVal.dict kvs ∧ dget kvs "subtasks" = some (PyVal.list cs) := by
  cases t <;> simp [getSubtasks] at h
  next kvs =>
  cases hst : dget kvs "subtasks" with
  | none => rw [hst] at h; simp at h
  | some w =>
    rw [hst] at h
    cases w <;> simp at h
    subst h
    exact ⟨kvs, rfl, hst⟩

theorem getSubtasks_of_dget {kvs : List (String × PyVal)} {ts : List PyVal}
    (h : dget kvs "subtasks" = some (PyVal.list ts)) :
    getSubtasks (PyVal.dict kvs) = some ts := by
  simp [getSubtasks, h]

theorem validate_descend {t v : PyVal} (hd : Descend t v)
    (h : validate_task t = Except.ok ()) : validate_task v = Except.ok () := by
  induction hd with
  | refl t => exact h
  | step t u v cs hsub hu _ ih =>
    obtain ⟨kvs, rfl, hdg⟩ := getSubtasks_inv hsub
    exact ih (checkSubtasks_ok (validate_ok_check h) hdg u hu)

theorem travList_ok_split {f : PyVal → Except PyErr (List String)} :
    ∀ (p : List PyVal) {u : PyVal} {q : List PyVal} {out : List String},
    travList f (p ++ u :: q) = Except.ok out →
    ∃ A lu B, travList f p = Except.ok A ∧ f u = Except.ok lu ∧
      travList f q = Except.ok B ∧ out = A ++ lu ++ B := by
  intro p
  induction p with
  | nil =>
    intro u q out h
    simp only [List.nil_append, travList] at h
    cases hf : f u with
    | error e => simp [hf] at h
    | ok lu =>
      simp only [hf] at h
      cases hq : travList f q with
      | error e => simp [hq] at h
      | ok B =>
        simp only [hq] at h
        cases h
        exact ⟨[], lu, B, rfl, rfl, rfl, by simp⟩
  | cons v rest ih =>
    intro u q out h
    simp only [List.cons_append, travList] at h
    cases hf : f v with
    | error e => simp [hf] at h
    | ok lv =>
      simp only [hf] at h
      cases hr : travList f (rest ++ u :: q) with
      | error e => simp [hr] at h
      | ok r =>
        obtain ⟨A, lu, B, hA, hu, hB, rfl⟩ := ih hr
        simp only [List.append_eq] at h
        rw [hr] at h
        simp at h
        refine ⟨lv ++ A, lu, B, ?_, hu, hB, by simp [List.append_assoc, ← h]⟩
        simp [travList, hf, hA]

theorem travList_ok_mem {f : PyVal → Except PyErr (List String)} {l : List PyVal}
    {out : List String} {u : PyVal} (h : travList f l = Except.ok out) (hu : u ∈ l) :
    ∃ lu A B, f u = Except.ok lu ∧ out = A ++ lu ++ B := by
  obtain ⟨p, q, rfl⟩ := List.append_of_mem hu
  obtain ⟨A, lu, B, _, hfu, _, hout⟩ := travList_ok_split p h
  exact ⟨lu, A, B, hfu, hout⟩

theorem travList_ok_of_all {f : PyVal → Except PyErr (List String)} {l : List PyVal}
    (h : ∀ u ∈ l, ∃ lu, f u = Except.ok lu) :
    ∃ out, travList f l = Except.ok out := by
  induction l with
  | nil => exact ⟨[], rfl⟩
  | cons v rest ih =>
    obtain ⟨lv, hv⟩ := h v (List.mem_cons_self v rest)
    obtain ⟨r, hr⟩ := ih (fun u hu => h u (List.mem_cons_of_mem v hu))
    exact ⟨lv ++ r, by simp [travList, hv, hr]⟩

theorem getKeys_ok {ts : List PyVal} (h : ∀ u ∈ ts, isDict u = true) :
    getKeys ts = Except.ok (ts.map priKeyTotal) := by
  induction ts with
  | nil => rfl
  | cons u rest ih =>
    have hu := h u (List.mem_cons_self u rest)
    cases u <;> simp [isDict] at hu
    simp [getKeys, getKey, ih (fun v hv => h v (List.mem_cons_of_mem _ hv)), priKeyTotal]

theorem schedSubtasks_none {kvs : List (String × PyVal)}
    (h : dget kvs "subtasks" = Option.none) :
    schedSubtasks traverse_and_schedule kvs = Except.ok [] := by
  simp [schedSubtasks, h]

theorem schedSubtasks_ok_list {kvs : List (String × PyVal)} {ts : List PyVal}
    {sub : List String} (hst : dget kvs "subtasks" = some (PyVal.list ts))
    (h : schedSubtasks traverse_and_schedule kvs = Except.ok sub) :
    travList traverse_and_schedule (sortDesc ltPri ts) = Except.ok sub := by
  simp only [schedSubtasks, hst] at h
  cases hk : getKeys ts with
  | error e => simp [hk] at h
  | ok ks =>
    simp only [hk] at h
    by_cases hc : allComparable ks = true
    · simpa [hc] using h
    · simp [hc] at h

theorem appendOwnName_ok {kvs : List (String × PyVal)} {sub l : List String}
    (h : appendOwnName kvs sub = Except.ok l) :
    l = sub ++ [nameOf (PyVal.dict kvs)] := by
  cases hn : dget kvs "name" with
  | none => simp [appendOwnName, hn] at h
  | some v =>
    cases v <;> simp [appendOwnName, hn] at h
    simp [nameOf, hn, ← h]

theorem traverse_ok_validate {t : PyVal} {l : List String}
    (h : traverse_and_schedule t = Except.ok l) : validate_task t = Except.ok () := by
  by_cases hd : isDict t = true
  · cases t <;> simp [isDict] at hd
    next kvs =>
    rw [traverse_dict_eq] at h
    cases hv : validate_task (PyVal.dict kvs) with
    | error e => simp [hv] at h
    | ok u => cases u; rfl
  · rw [traverse_nondict (by simpa using hd)] at h
    simp at h

theorem traverse_ok_dict_elim {kvs : List (String × PyVal)} {l : List String}
    (h : traverse_and_schedule (PyVal.dict kvs) = Except.ok l) :
    ∃ sub, schedSubtasks traverse_and_schedule kvs = Except.ok sub ∧
      l = sub ++ [nameOf (PyVal.dict kvs)] := by
  have hv := traverse_ok_validate h
  rw [traverse_dict_eq] at h
  simp only [hv] at h
  cases hs : schedSubtasks traverse_and_schedule kvs with
  | error e => simp [hs] at h
  | ok sub =>
    simp only [hs] at h
    exact ⟨sub, rfl, appendOwnName_ok h⟩

theorem validate_traverse_ok :
    ∀ n (t : PyVal), pySize t ≤ n → validate_task t = Except.ok () →
    ∃ l, traverse_and_schedule t = Except.ok l := by
  intro n
  induction n with
  | zero =>
    intro t ht _
    have := pySize_pos t
    omega
  | succ n ih =>
    intro t ht h
    have hd := validate_ok_isDict h
    cases t <;> simp [isDict] at hd
    next kvs =>
    obtain ⟨s, hs⟩ := validate_ok_name h
    rcases validate_ok_subtasks_cases h with hnone | ⟨ts, hst⟩
    · refine ⟨[s], ?_⟩
      rw [traverse_dict_eq]
      simp [h, schedSubtasks_none hnone, appendOwnName, hs]
    · have hkids := checkSubtasks_ok (validate_ok_check h) hst
      have hdicts : ∀ u ∈ ts, isDict u = true := fun u hu => validate_ok_isDict (hkids u hu)
      have hkeys := getKeys_ok hdicts
      have hnum : ∀ k ∈ ts.map priKeyTotal, isNumber k = true := by
        intro k hk
        obtain ⟨u, hu, rfl⟩ := List.mem_map.mp hk
        exact validate_ok_priKey (hkids u hu)
      have hcomp := allComparable_of_num hnum
      obtain ⟨out, hout⟩ : ∃ out,
          travList traverse_and_schedule (sortDesc ltPri ts) = Except.ok out := by
        refine travList_ok_of_all (fun u hu => ?_)
        have hu2 := mem_sortDesc.mp hu
        have hsz := dget_subtasks_size hst hu2
        exact ih u (by omega) (hkids u hu2)
      refine ⟨out ++ [s], ?_⟩
      rw [traverse_dict_eq]
      simp only [h]
      have hsched : schedSubtasks traverse_and_schedule kvs = Except.ok out := by
        simp [schedSubtasks, hst, hkeys, hcomp, hout]
      simp [hsched, appendOwnName, hs]

theorem schedule_ok_elim {ts : List PyVal} {out : List String}
    (h : schedule_tasks (PyVal.list ts) = Except.ok out) :
    travList traverse_and_schedule (sortDesc ltPri ts) = Except.ok out := by
  simp only [schedule_tasks] at h
  by_cases hall : ts.all isDict = true
  · rw [if_pos hall] at h
    cases hk : getKeys ts with
    | error e => simp [hk] at h
    | ok ks =>
      simp only [hk] at h
      by_cases hc : allComparable ks = true
      · simpa [hc] using h
      · simp [hc] at h
  · rw [if_neg hall] at h
    simp at h

theorem schedule_node_valid {ts : List PyVal} {out : List String} {r : PyVal}
    (h : schedule_tasks (PyVal.list ts) = Except.ok out) (hr : r ∈ ts) :
    validate_task r = Except.ok () := by
  have h2 := schedule_ok_elim h
  obtain ⟨lr, _, _, hfr, _⟩ := travList_ok_mem h2 (mem_sortDesc.mpr hr)
  exact traverse_ok_validate hfr

theorem descend_context {t v : PyVal} (hd : Descend t v) :
    ∀ {l : List String}, traverse_and_schedule t = Except.ok l →
    ∃ lv A B, traverse_and_schedule v = Except.ok lv ∧ l = A ++ lv ++ B := by
  induction hd with
  | refl t =>
    intro l h
    exact ⟨l, [], [], h, by simp⟩
  | step t u v cs hsub hu _ ih =>
    intro l h
    obtain ⟨kvs, rfl, hdg⟩ := getSubtasks_inv hsub
    obtain ⟨sub, hss, rfl⟩ := traverse_ok_dict_elim h
    have htl := schedSubtasks_ok_list hdg hss
    obtain ⟨lu, A, B, hfu, rfl⟩ := travList_ok_mem htl (mem_sortDesc.mpr hu)
    obtain ⟨lv, A2, B2, hlv, rfl⟩ := ih hfu
    exact ⟨lv, A ++ A2, B2 ++ B ++ [nameOf (PyVal.dict kvs)], hlv, by simp [List.append_assoc]⟩

theorem schedule_context {ts : List PyVal} {out : List String} {r w : PyVal}
    (h : schedule_tasks (PyVal.list ts) = Except.ok out) (hr : r ∈ ts)
    (hd : Descend r w) :
    ∃ lw X Y, traverse_and_schedule w = Except.ok lw ∧ out = X ++ lw ++ Y := by
  have h2 := schedule_ok_elim h
  obtain ⟨lr, A, B, hfr, rfl⟩ := travList_ok_mem h2 (mem_sortDesc.mpr hr)
  obtain ⟨lw, A2, B2, hlw, rfl⟩ := descend_context hd hfr
  exact ⟨lw, A ++ A2, B2 ++ B, hlw, by simp [List.append_assoc]⟩

/-- A node whose priority field is present but not numeric. -/
def badPriority : PyVal → Prop
  | PyVal.dict kvs => ∃ p, dget kvs "priority" = some p ∧ isNumber p = false
  | _ => False

theorem badPriority_validate_fails {w : PyVal} (h : badPriority w) :
    ∃ e, validate_task w = Except.error e := by
  cases w <;> simp [badPriority] at h
  next kvs =>
  obtain ⟨p, hp, hnum⟩ := h
  rw [validate_dict_eq]
  cases hn : dget kvs "name" with
  | none => exact ⟨_, rfl⟩
  | some v =>
    cases v
    case str s =>
      simp [hp, hnum]
    all_goals exact ⟨_, rfl⟩

theorem schedule_fails_of_invalid {ts : List PyVal} {r w : PyVal} {e : PyErr}
    (hr : r ∈ ts) (hd : Descend r w) (hw : validate_task w = Except.error e) :
    ∃ e2, schedule_tasks (PyVal.list ts) = Except.error e2 := by
  cases hs : schedule_tasks (PyVal.list ts) with
  | error e2 => exact ⟨e2, rfl⟩
  | ok out =>
    have hval := schedule_node_valid hs hr
    have h2 := validate_descend hd hval
    rw [hw] at h2
    simp at h2

/-- C7: if any node at any depth of the input hierarchy fails validation,
`schedule_tasks` fails as a whole with some validation error and produces no
output sequence (an `Except.error` carries no partial result), even when
earlier sibling subtrees are individually valid. -/
theorem c7_whole_operation_fails {ts : List PyVal} {r w : PyVal} {e : PyErr}
    (hr : r ∈ ts) (hd : Descend r w) (hw : validate_task w = Except.error e) :
    ∃ e2, schedule_tasks (PyVal.list ts) = Except.error e2 :=
  schedule_fails_of_invalid hr hd hw

/-- C7 witness: the concrete mixed valid/invalid hierarchy from the spec
(scenario 5), instantiating `c7_whole_operation_fails` at the node whose
subtasks field is the string value x. -/
theorem c7_whole_operation_fails_witness :
    ∃ e2, schedule_tasks (PyVal.list [
      PyVal.dict [("name", PyVal.str "Y"), ("priority", PyVal.int 3)],
      PyVal.dict [("name", PyVal.str "Z"),
        ("subtasks", PyVal.list [PyVal.dict [("name", PyVal.str "SV"), ("priority", PyVal.int 1)]])],
      PyVal.dict [("name", PyVal.str "I"), ("subtasks", PyVal.str "x")]]) =
      Except.error e2 :=
  @c7_whole_operation_fails
    [PyVal.dict [("name", PyVal.str "Y"), ("priority", PyVal.int 3)],
     PyVal.dict [("name", PyVal.str "Z"),
       ("subtasks", PyVal.list [PyVal.dict [("name", PyVal.str "SV"), ("priority", PyVal.int 1)]])],
     PyVal.dict [("name", PyVal.str "I"), ("subtasks", PyVal.str "x")]]
    (PyVal.dict [("name", PyVal.str "I"), ("subtasks", PyVal.str "x")])
    (PyVal.dict [("name", PyVal.str "I"), ("subtasks", PyVal.str "x")])
    PyErr.subtasksNotAList
    (by simp) (Descend.refl _) rfl

/-- C2 counterexample: the hierarchy containing the single node with priority
equal to the string high and no name field fails with the missing-name error,
not the invalid-priority-type error, even though that node has a present,
non-numeric priority. -/
theorem c2_counterexample :
    schedule_tasks (PyVal.list [PyVal.dict [("priority", PyVal.str "high")]]) =
      Except.error PyErr.missingOrInvalidName ∧
    PyErr.missingOrInvalidName ≠ PyErr.invalidPriorityType :=
  ⟨rfl, by decide⟩

/-- C2 (amended): every hierarchy containing a node whose priority field is
present and not numeric fails (no output is ever produced), but the reported
error is not always the invalid-priority-type one: an earlier check (such as
the name check on the same node, or on a node validated earlier) can fail
first. -/
theorem c2_nonnumeric_priority_fails {ts : List PyVal} {r w : PyVal}
    (hr : r ∈ ts) (hd : Descend r w) (hw : badPriority w) :
    ∃ e, schedule_tasks (PyVal.list ts) = Except.error e := by
  obtain ⟨e0, he⟩ := badPriority_validate_fails hw
  exact schedule_fails_of_invalid hr hd he

/-- C2 witness: instantiating `c2_nonnumeric_priority_fails` at a concrete
one-node hierarchy whose priority is a string. -/
theorem c2_nonnumeric_priority_fails_witness :
    ∃ e, schedule_tasks (PyVal.list
      [PyVal.dict [("name", PyVal.str "a"), ("priority", PyVal.str "x")]]) =
      Except.error e :=
  @c2_nonnumeric_priority_fails
    [PyVal.dict [("name", PyVal.str "a"), ("priority", PyVal.str "x")]]
    (PyVal.dict [("name", PyVal.str "a"), ("priority", PyVal.str "x")])
    (PyVal.dict [("name", PyVal.str "a"), ("priority", PyVal.str "x")])
    (by simp) (Descend.refl _) ⟨PyVal.str "x", rfl, rfl⟩

/-- The list `cs` is a sibling group of the forest `ts`: either the top
level itself, or the subtasks list of some node of the forest. -/
def SibGroup (ts cs : List PyVal) : Prop :=
  cs = ts ∨ ∃ r ∈ ts, ∃ w, Descend r w ∧ getSubtasks w = some cs

theorem sibGroup_out {ts cs : List PyVal} {out : List String}
    (h : schedule_tasks (PyVal.list ts) = Except.ok out) (hg : SibGroup ts cs) :
    ∃ sub X Y, travList traverse_and_schedule (sortDesc ltPri cs) = Except.ok sub ∧
      out = X ++ sub ++ Y ∧ ∀ u ∈ cs, validate_task u = Except.ok () := by
  rcases hg with rfl | ⟨r, hr, w, hd, hw⟩
  · exact ⟨out, [], [], schedule_ok_elim h, by simp,
      fun u hu => schedule_node_valid h hu⟩
  · obtain ⟨lw, X, Y, hlw, rfl⟩ := schedule_context h hr hd
    obtain ⟨kvs, rfl, hdg⟩ := getSubtasks_inv hw
    obtain ⟨sub, hss, rfl⟩ := traverse_ok_dict_elim hlw
    have htl := schedSubtasks_ok_list hdg hss
    have hval : validate_task (PyVal.dict kvs) = Except.ok () := traverse_ok_validate hlw
    exact ⟨sub, X, nameOf (PyVal.dict kvs) :: Y, htl, by simp [List.append_assoc],
      fun u hu => checkSubtasks_ok (validate_ok_check hval) hdg u hu⟩

theorem sortDesc_ltPri_eq_intLt {cs : List PyVal}
    (h : ∀ u ∈ cs, validate_task u = Except.ok ()) :
    sortDesc ltPri cs = sortDesc intLt cs :=
  sortDesc_congr (fun x hx y hy =>
    ltPri_eq_intLt (validate_ok_priKey (h x hx)) (validate_ok_priKey (h y hy)))

/-- C3: for any two siblings (in the top level or in the subtasks list of any
node of a successfully scheduled forest) with distinct integer priorities
(missing priority counting as 0, booleans as 0 or 1), the entire flattened
subtree-sequence of the higher-priority sibling appears in the output before
the entire flattened subtree-sequence of the lower-priority one. -/
theorem c3_priority_order {ts cs : List PyVal} {out : List String} {a b : PyVal}
    (h : schedule_tasks (PyVal.list ts) = Except.ok out) (hg : SibGroup ts cs)
    (ha : a ∈ cs) (hb : b ∈ cs) (hk : keyZ b < keyZ a) :
    ∃ la lb P Q R, traverse_and_schedule a = Except.ok la ∧
      traverse_and_schedule b = Except.ok lb ∧ out = P ++ la ++ Q ++ lb ++ R := by
  obtain ⟨sub, X, Y, htl, rfl, hval⟩ := sibGroup_out h hg
  rw [sortDesc_ltPri_eq_intLt hval] at htl
  obtain ⟨p, q, r, hsplit⟩ := sorted_mem_split (sortDesc_sorted cs)
    (mem_sortDesc.mpr ha) (mem_sortDesc.mpr hb) hk
  rw [hsplit] at htl
  rw [List.append_assoc, List.cons_append] at htl
  obtain ⟨A, la, B, _, hfa, hB, rfl⟩ := travList_ok_split p htl
  obtain ⟨A2, lb, B2, _, hfb, _, rfl⟩ := travList_ok_split q hB
  exact ⟨la, lb, X ++ A, A2, B2 ++ Y, hfa, hfb, by simp [List.append_assoc]⟩

/-- C3 witness: instantiating `c3_priority_order` at a concrete two-node
top-level forest with priorities 2 and 1. -/
theorem c3_priority_order_witness :
    ∃ la lb P Q R,
      traverse_and_schedule (PyVal.dict [("name", PyVal.str "a"), ("priority", PyVal.int 2)]) =
        Except.ok la ∧
      traverse_and_schedule (PyVal.dict [("name", PyVal.str "b"), ("priority", PyVal.int 1)]) =
        Except.ok lb ∧
      ["a", "b"] = P ++ la ++ Q ++ lb ++ R :=
  @c3_priority_order
    [PyVal.dict [("name", PyVal.str "a"), ("priority", PyVal.int 2)],
     PyVal.dict [("name", PyVal.str "b"), ("priority", PyVal.int 1)]]
    [PyVal.dict [("name", PyVal.str "a"), ("priority", PyVal.int 2)],
     PyVal.dict [("name", PyVal.str "b"), ("priority", PyVal.int 1)]]
    ["a", "b"]
    (PyVal.dict [("name", PyVal.str "a"), ("priority", PyVal.int 2)])
    (PyVal.dict [("name", PyVal.str "b"), ("priority", PyVal.int 1)])
    rfl (Or.inl rfl) (by simp) (by simp) (by decide)

/-- C4: two siblings with equal integer priorities (equal numbers, or both
absent, or a boolean tying with the equal number) keep their input order:
the earlier sibling's flattened subtree-sequence appears in the output before
the later sibling's (stability of the sort). -/
theorem c4_stable_equal_priority {ts cs l1 l2 l3 : List PyVal} {out : List String}
    {a b : PyVal}
    (h : schedule_tasks (PyVal.list ts) = Except.ok out) (hg : SibGroup ts cs)
    (hsplit : cs = l1 ++ a :: l2 ++ b :: l3) (hk : keyZ a = keyZ b) :
    ∃ la lb P Q R, traverse_and_schedule a = Except.ok la ∧
      traverse_and_schedule b = Except.ok lb ∧ out = P ++ la ++ Q ++ lb ++ R := by
  obtain ⟨sub, X, Y, htl, rfl, hval⟩ := sibGroup_out h hg
  rw [sortDesc_ltPri_eq_intLt hval] at htl
  obtain ⟨p, q, r, hs2⟩ := sublist_pair_split (pair_sublist_sortDesc hsplit hk)
  rw [hs2] at htl
  rw [List.append_assoc, List.cons_append] at htl
  obtain ⟨A, la, B, _, hfa, hB, rfl⟩ := travList_ok_split p htl
  obtain ⟨A2, lb, B2, _, hfb, _, rfl⟩ := travList_ok_split q hB
  exact ⟨la, lb, X ++ A, A2, B2 ++ Y, hfa, hfb, by simp [List.append_assoc]⟩

/-- C4 witness: instantiating `c4_stable_equal_priority` at a concrete
two-node top-level forest whose nodes share priority 1. -/
theorem c4_stable_equal_priority_witness :
    ∃ la lb P Q R,
      traverse_and_schedule (PyVal.dict [("name", PyVal.str "a"), ("priority", PyVal.int 1)]) =
        Except.ok la ∧
      traverse_and_schedule (PyVal.dict [("name", PyVal.str "b"), ("priority", PyVal.int 1)]) =
        Except.ok lb ∧
      ["a", "b"] = P ++ la ++ Q ++ lb ++ R :=
  @c4_stable_equal_priority
    [PyVal.dict [("name", PyVal.str "a"), ("priority", PyVal.int 1)],
     PyVal.dict [("name", PyVal.str "b"), ("priority", PyVal.int 1)]]
    [PyVal.dict [("name", PyVal.str "a"), ("priority", PyVal.int 1)],
     PyVal.dict [("name", PyVal.str "b"), ("priority", PyVal.int 1)]]
    [] [] []
    ["a", "b"]
    (PyVal.dict [("name", PyVal.str "a"), ("priority", PyVal.int 1)])
    (PyVal.dict [("name", PyVal.str "b"), ("priority", PyVal.int 1)])
    rfl (Or.inl rfl) rfl rfl

/-- Relation asserting `v` is a proper descendant of `w`: a node of the subtree below one of
the subtasks of `w`. -/
def StrictDescend (w v : PyVal) : Prop :=
  ∃ cs u, getSubtasks w = some cs ∧ u ∈ cs ∧ Descend u v

theorem traverse_name_last {t : PyVal} {l : List String}
    (h : traverse_and_schedule t = Except.ok l) :
    ∃ pre, l = pre ++ [nameOf t] := by
  have hval := traverse_ok_validate h
  have hdict := validate_ok_isDict hval
  cases t <;> simp [isDict] at hdict
  next kvs =>
  obtain ⟨sub, _, rfl⟩ := traverse_ok_dict_elim h
  exact ⟨sub, rfl⟩

theorem descend_name_mem {t v : PyVal} (hd : Descend t v) {l : List String}
    (h : traverse_and_schedule t = Except.ok l) : nameOf v ∈ l := by
  obtain ⟨lv, A, B, hlv, rfl⟩ := descend_context hd h
  obtain ⟨pre, rfl⟩ := traverse_name_last hlv
  simp

/-- C5: in a successful schedule, every node contributes its name after the
whole flattened block of its subtasks: the output splits around an occurrence
of the node name such that the names of all proper descendants of the node
occur in the block immediately before it. -/
theorem c5_children_before_parent {ts : List PyVal} {out : List String} {r w : PyVal}
    (h : schedule_tasks (PyVal.list ts) = Except.ok out) (hr : r ∈ ts)
    (hd : Descend r w) :
    ∃ X pre Y, out = X ++ pre ++ nameOf w :: Y ∧
      ∀ v, StrictDescend w v → nameOf v ∈ pre := by
  obtain ⟨lw, X, Y, hlw, rfl⟩ := schedule_context h hr hd
  have hval := traverse_ok_validate hlw
  have hdict := validate_ok_isDict hval
  cases w <;> simp [isDict] at hdict
  next kvs =>
  obtain ⟨sub, hss, rfl⟩ := traverse_ok_dict_elim hlw
  refine ⟨X, sub, Y, by simp [List.append_assoc], ?_⟩
  rintro v ⟨cs, u, hgs, hu, hdv⟩
  obtain ⟨kvs2, heq, hdg⟩ := getSubtasks_inv hgs
  injection heq with heq2
  subst heq2
  have htl := schedSubtasks_ok_list hdg hss
  obtain ⟨lu, A, B, hfu, rfl⟩ := travList_ok_mem htl (mem_sortDesc.mpr hu)
  have hmem := descend_name_mem hdv hfu
  simp [List.mem_append, hmem]

/-- C5 witness: instantiating `c5_children_before_parent` at a concrete
one-parent one-child forest. -/
theorem c5_children_before_parent_witness :
    ∃ X pre Y, ["c", "p"] = X ++ pre ++ "p" :: Y ∧
      ∀ v, StrictDescend (PyVal.dict [("name", PyVal.str "p"),
        ("subtasks", PyVal.list [PyVal.dict [("name", PyVal.str "c")]])]) v →
        nameOf v ∈ pre :=
  @c5_children_before_parent
    [PyVal.dict [("name", PyVal.str "p"),
      ("subtasks", PyVal.list [PyVal.dict [("name", PyVal.str "c")]])]]
    ["c", "p"]
    (PyVal.dict [("name", PyVal.str "p"),
      ("subtasks", PyVal.list [PyVal.dict [("name", PyVal.str "c")]])])
    (PyVal.dict [("name", PyVal.str "p"),
      ("subtasks", PyVal.list [PyVal.dict [("name", PyVal.str "c")]])])
    rfl (by simp) (Descend.refl _)

theorem listMapCongr {α β : Type} {l : List α} {f g : α → β}
    (h : ∀ a ∈ l, f a = g a) : l.map f = l.map g := by
  induction l with
  | nil => rfl
  | cons a rest ih =>
    simp only [List.map_cons]
    rw [h a (List.mem_cons_self a rest), ih (fun x hx => h x (List.mem_cons_of_mem a hx))]

/-- The names of a subtree in input order (subtask names first, own name
last), with explicit fuel.  A non-dict value contributes no names. -/
def nodeNamesFuel : Nat → PyVal → List String
  | 0, _ => []
  | Nat.succ n, t =>
    match getSubtasks t with
    | some cs => ((cs.map (nodeNamesFuel n)).flatten) ++ [nameOf t]
    | Option.none => if isDict t then [nameOf t] else []

/-- The names of a subtree in input order. -/
def nodeNames (t : PyVal) : List String := nodeNamesFuel (Nat.succ (pySize t)) t

/-- The names of a forest in input order. -/
def forestNames (ts : List PyVal) : List String := (ts.map nodeNames).flatten

/-- The number of nodes of a subtree, with explicit fuel. -/
def countFuel : Nat → PyVal → Nat
  | 0, _ => 0
  | Nat.succ n, t =>
    match getSubtasks t with
    | some cs => (cs.map (countFuel n)).sum + 1
    | Option.none => if isDict t then 1 else 0

/-- The number of nodes of a subtree. -/
def countNode (t : PyVal) : Nat := countFuel (Nat.succ (pySize t)) t

/-- The total number of nodes of a forest. -/
def forestCount (ts : List PyVal) : Nat := (ts.map countNode).sum

theorem nodeNamesFuel_congr :
    ∀ n m t, pySize t ≤ n → pySize t ≤ m → nodeNamesFuel n t = nodeNamesFuel m t := by
  intro n
  induction n with
  | zero =>
    intro m t ht _
    have := pySize_pos t
    omega
  | succ n ih =>
    intro m t ht hm
    have hpos := pySize_pos t
    cases m with
    | zero => omega
    | succ m =>
      simp only [nodeNamesFuel]
      cases hgs : getSubtasks t with
      | none => rfl
      | some cs =>
        have hsz := getSubtasks_pySize hgs
        have hmap : cs.map (nodeNamesFuel n) = cs.map (nodeNamesFuel m) := by
          refine listMapCongr (fun u hu => ?_)
          have := mem_pySizeList hu
          exact ih m u (by omega) (by omega)
        show ((cs.map (nodeNamesFuel n)).flatten) ++ [nameOf t] =
          ((cs.map (nodeNamesFuel m)).flatten) ++ [nameOf t]
        rw [hmap]

theorem nodeNames_eq_fuel {n : Nat} {t : PyVal} (h : pySize t ≤ n) :
    nodeNamesFuel n t = nodeNames t :=
  nodeNamesFuel_congr n (Nat.succ (pySize t)) t h (Nat.le_succ _)

theorem nodeNamesFuel_length : ∀ n (t : PyVal),
    (nodeNamesFuel n t).length = countFuel n t := by
  intro n
  induction n with
  | zero => intro t; rfl
  | succ n ih =>
    intro t
    simp only [nodeNamesFuel, countFuel]
    cases hgs : getSubtasks t with
    | none =>
      by_cases hd : isDict t = true <;> simp [hd]
    | some cs =>
      show ((cs.map (nodeNamesFuel n)).flatten ++ [nameOf t]).length
          = (cs.map (countFuel n)).sum + 1
      rw [List.length_append, List.length_flatten, List.map_map]
      have hmc : (List.length ∘ nodeNamesFuel n) = countFuel n := by
        funext u
        exact ih u
      rw [hmc]
      simp

theorem nodeNames_length (t : PyVal) : (nodeNames t).length = countNode t :=
  nodeNamesFuel_length _ _

theorem travList_perm_names {l : List PyVal} {out : List String}
    (h : travList traverse_and_schedule l = Except.ok out)
    (hp : ∀ u ∈ l, ∀ lu, traverse_and_schedule u = Except.ok lu →
      List.Perm lu (nodeNames u)) :
    List.Perm out (forestNames l) := by
  induction l generalizing out with
  | nil =>
    simp only [travList] at h
    cases h
    exact List.Perm.refl _
  | cons v rest ih =>
    have hsplit : travList traverse_and_schedule ([] ++ v :: rest) = Except.ok out := h
    obtain ⟨A, lu, B, hA, hu, hB, rfl⟩ := travList_ok_split [] hsplit
    have hA2 : A = [] := by
      simp only [travList] at hA
      cases hA
      rfl
    subst hA2
    have h1 : List.Perm lu (nodeNames v) := hp v (List.mem_cons_self v rest) lu hu
    have h2 : List.Perm B (forestNames rest) :=
      ih hB (fun u hu2 => hp u (List.mem_cons_of_mem v hu2))
    have : forestNames (v :: rest) = nodeNames v ++ forestNames rest := by
      simp [forestNames]
    rw [this]
    simpa using h1.append h2

theorem traverse_perm_names :
    ∀ n (t : PyVal), pySize t ≤ n → ∀ {l : List String},
    traverse_and_schedule t = Except.ok l → List.Perm l (nodeNames t) := by
  intro n
  induction n with
  | zero =>
    intro t ht
    have := pySize_pos t
    omega
  | succ n ih =>
    intro t ht l h
    have hval := traverse_ok_validate h
    have hdict := validate_ok_isDict hval
    cases t <;> simp [isDict] at hdict
    next kvs =>
    obtain ⟨sub, hss, rfl⟩ := traverse_ok_dict_elim h
    rcases validate_ok_subtasks_cases hval with hnone | ⟨ts, hst⟩
    · rw [schedSubtasks_none hnone] at hss
      cases hss
      have hns : getSubtasks (PyVal.dict kvs) = Option.none := by
        simp [getSubtasks, hnone]
      have : nodeNames (PyVal.dict kvs) = [nameOf (PyVal.dict kvs)] := by
        simp [nodeNames, nodeNamesFuel, hns, isDict]
      rw [this]
      simp
    · have htl := schedSubtasks_ok_list hst hss
      have hgs : getSubtasks (PyVal.dict kvs) = some ts := getSubtasks_of_dget hst
      have hperm : List.Perm sub (forestNames (sortDesc ltPri ts)) := by
        refine travList_perm_names htl (fun u hu lu hl => ?_)
        have hu2 : u ∈ ts := mem_sortDesc.mp hu
        have := dget_subtasks_size hst hu2
        exact ih u (by omega) hl
      have hsp : List.Perm (forestNames (sortDesc ltPri ts)) (forestNames ts) :=
        ((sortDesc_perm ltPri ts).map nodeNames).flatten
      have hnn : nodeNames (PyVal.dict kvs)
          = forestNames ts ++ [nameOf (PyVal.dict kvs)] := by
        have hfm : ts.map (nodeNamesFuel (pySize (PyVal.dict kvs))) = ts.map nodeNames := by
          refine listMapCongr (fun u hu => ?_)
          have := dget_subtasks_size hst hu
          exact nodeNames_eq_fuel (by omega)
        simp only [nodeNames, nodeNamesFuel]
        rw [hgs]
        show ((ts.map (nodeNamesFuel (pySize (PyVal.dict kvs)))).flatten)
            ++ [nameOf (PyVal.dict kvs)]
          = forestNames ts ++ [nameOf (PyVal.dict kvs)]
        rw [hfm]
        rfl
      rw [hnn]
      exact (hperm.trans hsp).append (List.Perm.refl _)

/-- C6: a successful schedule has exactly one output name per node of the
forest: the output length equals the total node count, and the output is a
permutation of the multiset of all node names (each node occurrence
contributes its name exactly once). -/
theorem c6_length_and_names {ts : List PyVal} {out : List String}
    (h : schedule_tasks (PyVal.list ts) = Except.ok out) :
    out.length = forestCount ts ∧ List.Perm out (forestNames ts) := by
  have h2 := schedule_ok_elim h
  have hperm : List.Perm out (forestNames (sortDesc ltPri ts)) :=
    travList_perm_names h2 (fun u _ lu hl => traverse_perm_names (pySize u) u le_rfl hl)
  have hsp : List.Perm (forestNames (sortDesc ltPri ts)) (forestNames ts) :=
    ((sortDesc_perm ltPri ts).map nodeNames).flatten
  have hp2 := hperm.trans hsp
  refine ⟨?_, hp2⟩
  rw [hp2.length_eq]
  simp only [forestNames, forestCount, List.length_flatten, List.map_map]
  have : (List.length ∘ nodeNames) = countNode := by
    funext u
    exact nodeNames_length u
  rw [this]

/-- C6 witness: instantiating `c6_length_and_names` at a concrete one-node
forest. -/
theorem c6_length_and_names_witness :
    ["X"].length = forestCount [PyVal.dict [("name", PyVal.str "X"), ("priority", PyVal.int 5)]] ∧
    List.Perm ["X"]
      (forestNames [PyVal.dict [("name", PyVal.str "X"), ("priority", PyVal.int 5)]]) :=
  @c6_length_and_names
    [PyVal.dict [("name", PyVal.str "X"), ("priority", PyVal.int 5)]]
    ["X"] rfl

/-- C1 counterexample: on the spec scenario-1 forest the program returns
the names C, D, B, A, E in that order, not D, B, C, A, E as the claim
states: siblings are sorted by descending priority, so C (priority 3) is
flattened before the subtree of B (priority 1). -/
theorem c1_counterexample :
    schedule_tasks (PyVal.list [
      PyVal.dict [("name", PyVal.str "A"), ("priority", PyVal.int 2),
        ("subtasks", PyVal.list [
          PyVal.dict [("name", PyVal.str "B"), ("priority", PyVal.int 1),
            ("subtasks", PyVal.list [
              PyVal.dict [("name", PyVal.str "D"), ("priority", PyVal.int 3)]])],
          PyVal.dict [("name", PyVal.str "C"), ("priority", PyVal.int 3)]])],
      PyVal.dict [("name", PyVal.str "E"), ("priority", PyVal.int 0)]]) =
      Except.ok ["C", "D", "B", "A", "E"] ∧
    (["C", "D", "B", "A", "E"] : List String) ≠ ["D", "B", "C", "A", "E"] :=
  ⟨rfl, by decide⟩

/-- C1 (amended): the scenario-1 forest schedules successfully and returns
exactly the sequence C, D, B, A, E. -/
theorem c1_schedule_result :
    schedule_tasks (PyVal.list [
      PyVal.dict [("name", PyVal.str "A"), ("priority", PyVal.int 2),
        ("subtasks", PyVal.list [
          PyVal.dict [("name", PyVal.str "B"), ("priority", PyVal.int 1),
            ("subtasks", PyVal.list [
              PyVal.dict [("name", PyVal.str "D"), ("priority", PyVal.int 3)]])],
          PyVal.dict [("name", PyVal.str "C"), ("priority", PyVal.int 3)]])],
      PyVal.dict [("name", PyVal.str "E"), ("priority", PyVal.int 0)]]) =
      Except.ok ["C", "D", "B", "A", "E"] := rfl

/-- C10: for EVERY node whose priority field is a boolean, validation
accepts the boolean (bool is a subclass of int in Python, so the isinstance
number check passes): validation of the node behaves exactly as if only the
name and subtasks checks existed, so the invalid-priority-type branch is
never taken for this node, and a node that is otherwise plain (string name,
no subtasks) validates outright; and for ordering purposes the boolean is
treated as the integer 1 (True) or 0 (False): its sort key is that integer,
and every comparison the sort makes between it and a numerically keyed
sibling is exactly the comparison of that integer with the sibling key. -/
theorem c10_bool_priority {kvs : List (String × PyVal)} {b : Bool}
    (hp : dget kvs "priority" = some (PyVal.bool b)) :
    validate_task (PyVal.dict kvs) =
      (match dget kvs "name" with
       | some (PyVal.str _) => checkSubtasks validate_task kvs
       | _ => Except.error PyErr.missingOrInvalidName) ∧
    (∀ s, dget kvs "name" = some (PyVal.str s) → dget kvs "subtasks" = Option.none →
      validate_task (PyVal.dict kvs) = Except.ok ()) ∧
    keyZ (PyVal.dict kvs) = (if b then (1 : Int) else 0) ∧
    (∀ u, isNumber (priKeyTotal u) = true →
      ltPri (PyVal.dict kvs) u = decide ((if b then (1 : Int) else 0) < keyZ u) ∧
      ltPri u (PyVal.dict kvs) = decide (keyZ u < (if b then (1 : Int) else 0))) := by
  have hkey : priKeyTotal (PyVal.dict kvs) = PyVal.bool b := by
    simp [priKeyTotal, hp]
  have hz : keyZ (PyVal.dict kvs) = (if b then (1 : Int) else 0) := by
    cases b <;> simp [keyZ, hkey, numVal, boolInt]
  have hA : validate_task (PyVal.dict kvs) =
      (match dget kvs "name" with
       | some (PyVal.str _) => checkSubtasks validate_task kvs
       | _ => Except.error PyErr.missingOrInvalidName) := by
    rw [validate_dict_eq kvs]
    cases hn : dget kvs "name" with
    | none => rfl
    | some v =>
      cases v <;> try rfl
      next =>
      show (match dget kvs "priority" with
        | some p => if isNumber p then checkSubtasks validate_task kvs
            else Except.error PyErr.invalidPriorityType
        | Option.none => checkSubtasks validate_task kvs) =
        checkSubtasks validate_task kvs
      rw [hp]
      rfl
  refine ⟨hA, ?_, hz, ?_⟩
  · intro s hn hsub
    rw [hA, hn]
    show checkSubtasks validate_task kvs = Except.ok ()
    unfold checkSubtasks
    rw [hsub]
  · intro u hu
    have hnum : isNumber (priKeyTotal (PyVal.dict kvs)) = true := by
      rw [hkey]
      rfl
    constructor
    · rw [ltPri_eq_intLt hnum hu]
      unfold intLt
      rw [hz]
    · rw [ltPri_eq_intLt hu hnum]
      unfold intLt
      rw [hz]

/-- C10 witness: instantiating `c10_bool_priority` at a concrete node with
priority True: it validates outright and its sort key is 1. -/
theorem c10_bool_priority_witness :
    validate_task (PyVal.dict [("name", PyVal.str "t"), ("priority", PyVal.bool true)]) =
      Except.ok () ∧
    keyZ (PyVal.dict [("name", PyVal.str "t"), ("priority", PyVal.bool true)]) = 1 := by
  obtain ⟨h1, h2, h3, h4⟩ :=
    @c10_bool_priority [("name", PyVal.str "t"), ("priority", PyVal.bool true)] true rfl
  exact ⟨h2 "t" rfl rfl, h3⟩

/-- C9: a node whose subtasks field is the empty list behaves exactly like
the same node with the subtasks field absent: for any two dicts that agree
on the name and priority fields, one carrying an empty subtasks list and the
other carrying none, the validation outcome and the traversal output are
identical. -/
theorem c9_empty_eq_absent {a b : List (String × PyVal)}
    (hn : dget a "name" = dget b "name")
    (hp : dget a "priority" = dget b "priority")
    (ha : dget a "subtasks" = some (PyVal.list []))
    (hb : dget b "subtasks" = Option.none) :
    validate_task (PyVal.dict a) = validate_task (PyVal.dict b) ∧
    traverse_and_schedule (PyVal.dict a) = traverse_and_schedule (PyVal.dict b) := by
  have hca : checkSubtasks validate_task a = Except.ok () := by
    simp [checkSubtasks, ha, valList]
  have hcb : checkSubtasks validate_task b = Except.ok () := by
    simp [checkSubtasks, hb]
  have hval : validate_task (PyVal.dict a) = validate_task (PyVal.dict b) := by
    rw [validate_dict_eq a, validate_dict_eq b, hn, hp, hca, hcb]
  refine ⟨hval, ?_⟩
  have hsa : schedSubtasks traverse_and_schedule a = Except.ok [] := by
    simp [schedSubtasks, ha, getKeys, allComparable, sortDesc, travList]
  have hsb : schedSubtasks traverse_and_schedule b = Except.ok [] := schedSubtasks_none hb
  have happ : appendOwnName a = appendOwnName b := by
    funext sub
    unfold appendOwnName
    rw [hn]
  rw [traverse_dict_eq a, traverse_dict_eq b, hval, hsa, hsb, happ]

/-- C9 witness: instantiating `c9_empty_eq_absent` at a concrete node. -/
theorem c9_empty_eq_absent_witness :
    validate_task (PyVal.dict [("name", PyVal.str "n"), ("subtasks", PyVal.list [])]) =
      validate_task (PyVal.dict [("name", PyVal.str "n")]) ∧
    traverse_and_schedule (PyVal.dict [("name", PyVal.str "n"), ("subtasks", PyVal.list [])]) =
      traverse_and_schedule (PyVal.dict [("name", PyVal.str "n")]) :=
  @c9_empty_eq_absent [("name", PyVal.str "n"), ("subtasks", PyVal.list [])]
    [("name", PyVal.str "n")] rfl rfl rfl rfl

/-- Pointwise lifting of a relation to lists of equal length. -/
def relListWith (R : PyVal → PyVal → Prop) : List PyVal → List PyVal → Prop
  | [], [] => True
  | t :: ts, u :: us => R t u ∧ relListWith R ts us
  | _, _ => False

/-- Two values that differ at most in dict fields other than name, priority
and subtasks (at any depth through subtasks lists), with explicit fuel.
Values that are not dicts carry no fields, so they must be equal. -/
def sameCoreFuel : Nat → PyVal → PyVal → Prop
  | 0, _, _ => False
  | Nat.succ n, PyVal.dict a, PyVal.dict b =>
    dget a "name" = dget b "name" ∧ dget a "priority" = dget b "priority" ∧
    (match dget a "subtasks", dget b "subtasks" with
     | Option.none, Option.none => True
     | some (PyVal.list ts), some (PyVal.list us) => relListWith (sameCoreFuel n) ts us
     | some v, some w => v = w
     | _, _ => False)
  | Nat.succ _, t, u => t = u

/-- Two values that differ at most in dict fields other than name, priority
and subtasks. -/
def SameCore (a b : PyVal) : Prop := sameCoreFuel (Nat.succ (pySize a)) a b

theorem relListWith_congr {R S : PyVal → PyVal → Prop} :
    ∀ {ts us : List PyVal}, (∀ t ∈ ts, ∀ u, (R t u ↔ S t u)) →
    (relListWith R ts us ↔ relListWith S ts us) := by
  intro ts
  induction ts with
  | nil =>
    intro us _
    cases us <;> exact Iff.rfl
  | cons t rest ih =>
    intro us h
    cases us with
    | nil => exact Iff.rfl
    | cons u urest =>
      exact and_congr (h t (List.mem_cons_self t rest) u)
        (ih (fun x hx w => h x (List.mem_cons_of_mem t hx) w))

theorem sameCoreFuel_congr :
    ∀ n m a b, pySize a ≤ n → pySize a ≤ m →
    (sameCoreFuel n a b ↔ sameCoreFuel m a b) := by
  intro n
  induction n with
  | zero =>
    intro m a b ha _
    have := pySize_pos a
    omega
  | succ n ih =>
    intro m a b ha hm
    have hpos := pySize_pos a
    cases m with
    | zero => omega
    | succ m =>
      cases a with
      | dict akvs =>
        cases b with
        | dict bkvs =>
          show (_ ∧ _ ∧ _) ↔ (_ ∧ _ ∧ _)
          refine and_congr Iff.rfl (and_congr Iff.rfl ?_)
          cases hsa : dget akvs "subtasks" with
          | none =>
            cases hsb : dget bkvs "subtasks" with
            | none => exact Iff.rfl
            | some w => cases w <;> exact Iff.rfl
          | some v =>
            cases hsb : dget bkvs "subtasks" with
            | none => cases v <;> exact Iff.rfl
            | some w =>
              cases v <;> cases w <;> try exact Iff.rfl
              next ts us =>
              refine relListWith_congr (fun t ht u => ?_)
              have := dget_subtasks_size hsa ht
              exact ih m t u (by omega) (by omega)
        | pynone => exact Iff.rfl
        | bool x => exact Iff.rfl
        | int k => exact Iff.rfl
        | str s => exact Iff.rfl
        | list l => exact Iff.rfl
      | pynone => exact Iff.rfl
      | bool x => exact Iff.rfl
      | int k => exact Iff.rfl
      | str s => exact Iff.rfl
      | list l => exact Iff.rfl

theorem sameCoreFuel_eq {n : Nat} {a b : PyVal} (h : pySize a ≤ n) :
    sameCoreFuel n a b ↔ SameCore a b :=
  sameCoreFuel_congr n (Nat.succ (pySize a)) a b h (Nat.le_succ _)

/-- The relation the subtasks fields of two related dicts satisfy. -/
def SubRel : Option PyVal → Option PyVal → Prop
  | Option.none, Option.none => True
  | some (PyVal.list ts), some (PyVal.list us) => relListWith SameCore ts us
  | some v, some w => v = w
  | _, _ => False

theorem sameCore_dict_iff {a b : List (String × PyVal)} :
    SameCore (PyVal.dict a) (PyVal.dict b) ↔
    (dget a "name" = dget b "name" ∧ dget a "priority" = dget b "priority" ∧
     SubRel (dget a "subtasks") (dget b "subtasks")) := by
  show (_ ∧ _ ∧ _) ↔ (_ ∧ _ ∧ _)
  refine and_congr Iff.rfl (and_congr Iff.rfl ?_)
  cases hsa : dget a "subtasks" with
  | none =>
    cases hsb : dget b "subtasks" with
    | none => exact Iff.rfl
    | some w => cases w <;> exact Iff.rfl
  | some v =>
    cases hsb : dget b "subtasks" with
    | none => cases v <;> exact Iff.rfl
    | some w =>
      cases v <;> cases w <;> try exact Iff.rfl
      next ts us =>
      refine relListWith_congr (fun t ht u => ?_)
      have := dget_subtasks_size hsa ht
      exact sameCoreFuel_eq (by omega)

theorem sameCore_nondict {a b : PyVal} (h : isDict a = false) (hs : SameCore a b) :
    a = b := by
  cases a <;> simp [isDict] at h <;> exact hs

theorem sameCore_dict_inv {akvs : List (String × PyVal)} {u : PyVal}
    (hs : SameCore (PyVal.dict akvs) u) : ∃ bkvs, u = PyVal.dict bkvs := by
  cases u with
  | dict bkvs => exact ⟨bkvs, rfl⟩
  | pynone => exact absurd hs (by simp [SameCore, sameCoreFuel])
  | bool x => exact absurd hs (by simp [SameCore, sameCoreFuel])
  | int k => exact absurd hs (by simp [SameCore, sameCoreFuel])
  | str s => exact absurd hs (by simp [SameCore, sameCoreFuel])
  | list l => exact absurd hs (by simp [SameCore, sameCoreFuel])

theorem subRel_some {v w : PyVal} (h : SubRel (some v) (some w)) :
    (∃ ts us, v = PyVal.list ts ∧ w = PyVal.list us ∧ relListWith SameCore ts us) ∨
    v = w := by
  cases v <;> cases w <;> first
    | exact Or.inl ⟨_, _, rfl, rfl, h⟩
    | exact Or.inr h

theorem sameCore_isDict {t u : PyVal} (h : SameCore t u) : isDict t = isDict u := by
  by_cases hd : isDict t = true
  · cases t <;> simp [isDict] at hd
    obtain ⟨bkvs, rfl⟩ := sameCore_dict_inv h
    rfl
  · rw [sameCore_nondict (by simpa using hd) h]

theorem sameCore_priKey {t u : PyVal} (h : SameCore t u) :
    priKeyTotal t = priKeyTotal u ∧ getKey t = getKey u := by
  by_cases hd : isDict t = true
  · cases t <;> simp [isDict] at hd
    next akvs =>
    obtain ⟨bkvs, rfl⟩ := sameCore_dict_inv h
    obtain ⟨_, hp, _⟩ := sameCore_dict_iff.mp h
    exact ⟨by simp [priKeyTotal, hp], by simp [getKey, hp]⟩
  · rw [sameCore_nondict (by simpa using hd) h]
    exact ⟨rfl, rfl⟩

theorem relList_mem_left {R : PyVal → PyVal → Prop} :
    ∀ {ts us : List PyVal}, relListWith R ts us → ∀ t ∈ ts, ∃ u ∈ us, R t u := by
  intro ts
  induction ts with
  | nil => intro us _ t ht; cases ht
  | cons v rest ih =>
    intro us h t ht
    cases us with
    | nil => cases h
    | cons w urest =>
      obtain ⟨hvw, hrest⟩ := h
      rcases List.mem_cons.mp ht with rfl | ht2
      · exact ⟨w, List.mem_cons_self w urest, hvw⟩
      · obtain ⟨u, hu, hr⟩ := ih hrest t ht2
        exact ⟨u, List.mem_cons_of_mem w hu, hr⟩

theorem relList_all_isDict {ts us : List PyVal} (h : relListWith SameCore ts us) :
    ts.all isDict = us.all isDict := by
  induction ts generalizing us with
  | nil => cases us with
    | nil => rfl
    | cons w urest => cases h
  | cons v rest ih =>
    cases us with
    | nil => cases h
    | cons w urest =>
      obtain ⟨hvw, hrest⟩ := h
      simp only [List.all_cons]
      rw [sameCore_isDict hvw, ih hrest]

theorem getKeys_rel {ts us : List PyVal} (h : relListWith SameCore ts us) :
    getKeys ts = getKeys us := by
  induction ts generalizing us with
  | nil => cases us with
    | nil => rfl
    | cons w urest => cases h
  | cons v rest ih =>
    cases us with
    | nil => cases h
    | cons w urest =>
      obtain ⟨hvw, hrest⟩ := h
      simp only [getKeys]
      rw [(sameCore_priKey hvw).2, ih hrest]

theorem insertDesc_rel {a b : PyVal} {l m : List PyVal} (hab : SameCore a b)
    (hlm : relListWith SameCore l m) :
    relListWith SameCore (insertDesc ltPri a l) (insertDesc ltPri b m) := by
  induction l generalizing m with
  | nil =>
    cases m with
    | nil => exact ⟨hab, trivial⟩
    | cons w urest => cases hlm
  | cons x rest ih =>
    cases m with
    | nil => cases hlm
    | cons y urest =>
      obtain ⟨hxy, hrest⟩ := hlm
      have hkey : ltPri a x = ltPri b y := by
        unfold ltPri
        rw [(sameCore_priKey hab).1, (sameCore_priKey hxy).1]
      simp only [insertDesc]
      by_cases hc : ltPri a x = true
      · rw [if_pos hc, if_pos (hkey ▸ hc)]
        exact ⟨hxy, ih hrest⟩
      · rw [if_neg hc, if_neg (hkey ▸ hc)]
        exact ⟨hab, hxy, hrest⟩

theorem sortDesc_rel {l m : List PyVal} (h : relListWith SameCore l m) :
    relListWith SameCore (sortDesc ltPri l) (sortDesc ltPri m) := by
  induction l generalizing m with
  | nil =>
    cases m with
    | nil => exact trivial
    | cons w urest => cases h
  | cons x rest ih =>
    cases m with
    | nil => cases h
    | cons y urest =>
      obtain ⟨hxy, hrest⟩ := h
      exact insertDesc_rel hxy (ih hrest)

theorem valList_rel {ts us : List PyVal} (hrel : relListWith SameCore ts us)
    (hv : ∀ t ∈ ts, ∀ u, SameCore t u → validate_task t = validate_task u) :
    valList validate_task ts = valList validate_task us := by
  induction ts generalizing us with
  | nil => cases us with
    | nil => rfl
    | cons w urest => cases hrel
  | cons v rest ih =>
    cases us with
    | nil => cases hrel
    | cons w urest =>
      obtain ⟨hvw, hrest⟩ := hrel
      simp only [valList]
      rw [hv v (List.mem_cons_self v rest) w hvw,
        ih hrest (fun t ht u hs => hv t (List.mem_cons_of_mem v ht) u hs)]

theorem travList_rel {ts us : List PyVal} (hrel : relListWith SameCore ts us)
    (hv : ∀ t ∈ ts, ∀ u, SameCore t u →
      traverse_and_schedule t = traverse_and_schedule u) :
    travList traverse_and_schedule ts = travList traverse_and_schedule us := by
  induction ts generalizing us with
  | nil => cases us with
    | nil => rfl
    | cons w urest => cases hrel
  | cons v rest ih =>
    cases us with
    | nil => cases hrel
    | cons w urest =>
      obtain ⟨hvw, hrest⟩ := hrel
      simp only [travList]
      rw [hv v (List.mem_cons_self v rest) w hvw,
        ih hrest (fun t ht u hs => hv t (List.mem_cons_of_mem v ht) u hs)]

theorem sameCore_eq_results :
    ∀ n (a b : PyVal), pySize a ≤ n → SameCore a b →
    validate_task a = validate_task b ∧
    traverse_and_schedule a = traverse_and_schedule b := by
  intro n
  induction n with
  | zero =>
    intro a b ha _
    have := pySize_pos a
    omega
  | succ n ih =>
    intro a b ha hs
    by_cases hd : isDict a = true
    · cases a <;> simp [isDict] at hd
      next akvs =>
      obtain ⟨bkvs, rfl⟩ := sameCore_dict_inv hs
      obtain ⟨hn, hp, hsub⟩ := sameCore_dict_iff.mp hs
      have happ : appendOwnName akvs = appendOwnName bkvs := by
        funext sub
        unfold appendOwnName
        rw [hn]
      cases hsa : dget akvs "subtasks" with
      | none =>
        cases hsb : dget bkvs "subtasks" with
        | none =>
          have hcheck : checkSubtasks validate_task akvs
              = checkSubtasks validate_task bkvs := by
            unfold checkSubtasks
            rw [hsa, hsb]
          have hval : validate_task (PyVal.dict akvs)
              = validate_task (PyVal.dict bkvs) := by
            rw [validate_dict_eq akvs, validate_dict_eq bkvs, hn, hp, hcheck]
          have hsch : schedSubtasks traverse_and_schedule akvs
              = schedSubtasks traverse_and_schedule bkvs := by
            unfold schedSubtasks
            rw [hsa, hsb]
          refine ⟨hval, ?_⟩
          rw [traverse_dict_eq akvs, traverse_dict_eq bkvs, hval, hsch, happ]
        | some w =>
          rw [hsa, hsb] at hsub
          cases w <;> cases hsub
      | some v =>
        cases hsb : dget bkvs "subtasks" with
        | none =>
          rw [hsa, hsb] at hsub
          cases v <;> cases hsub
        | some w =>
          rw [hsa, hsb] at hsub
          rcases subRel_some hsub with ⟨ts, us, rfl, rfl, hrel⟩ | rfl
          · have hveq : ∀ t ∈ ts, ∀ u, SameCore t u →
                validate_task t = validate_task u := by
              intro t ht u hstu
              have := dget_subtasks_size hsa ht
              exact (ih t u (by omega) hstu).1
            have hteq : ∀ t ∈ sortDesc ltPri ts, ∀ u, SameCore t u →
                traverse_and_schedule t = traverse_and_schedule u := by
              intro t ht u hstu
              have := dget_subtasks_size hsa (mem_sortDesc.mp ht)
              exact (ih t u (by omega) hstu).2
            have hcheck : checkSubtasks validate_task akvs
                = checkSubtasks validate_task bkvs := by
              unfold checkSubtasks
              rw [hsa, hsb]
              show valList validate_task ts = valList validate_task us
              exact valList_rel hrel hveq
            have hval : validate_task (PyVal.dict akvs)
                = validate_task (PyVal.dict bkvs) := by
              rw [validate_dict_eq akvs, validate_dict_eq bkvs, hn, hp, hcheck]
            have hsch : schedSubtasks traverse_and_schedule akvs
                = schedSubtasks traverse_and_schedule bkvs := by
              unfold schedSubtasks
              rw [hsa, hsb]
              show (match getKeys ts with
                | Except.error e => Except.error e
                | Except.ok ks =>
                  if allComparable ks then
                    travList traverse_and_schedule (sortDesc ltPri ts)
                  else Except.error PyErr.typeError) =
                (match getKeys us with
                | Except.error e => Except.error e
                | Except.ok ks =>
                  if allComparable ks then
                    travList traverse_and_schedule (sortDesc ltPri us)
                  else Except.error PyErr.typeError)
              rw [getKeys_rel hrel, travList_rel (sortDesc_rel hrel) hteq]
            refine ⟨hval, ?_⟩
            rw [traverse_dict_eq akvs, traverse_dict_eq bkvs, hval, hsch, happ]
          · have hcheck : checkSubtasks validate_task akvs
                = checkSubtasks validate_task bkvs := by
              unfold checkSubtasks
              rw [hsa, hsb]
            have hval : validate_task (PyVal.dict akvs)
                = validate_task (PyVal.dict bkvs) := by
              rw [validate_dict_eq akvs, validate_dict_eq bkvs, hn, hp, hcheck]
            have hsch : schedSubtasks traverse_and_schedule akvs
                = schedSubtasks traverse_and_schedule bkvs := by
              unfold schedSubtasks
              rw [hsa, hsb]
            refine ⟨hval, ?_⟩
            rw [traverse_dict_eq akvs, traverse_dict_eq bkvs, hval, hsch, happ]
    · rw [sameCore_nondict (by simpa using hd) hs]
      exact ⟨rfl, rfl⟩

/-- C8: two hierarchies whose nodes differ only in dict fields other than
name, priority and subtasks (for example an id field) produce the same
result: the same output sequence on success and the same error otherwise;
in particular unknown fields never cause rejection. -/
theorem c8_unknown_fields_ignored {ts us : List PyVal}
    (h : relListWith SameCore ts us) :
    schedule_tasks (PyVal.list ts) = schedule_tasks (PyVal.list us) := by
  have hteq : ∀ t ∈ sortDesc ltPri ts, ∀ u, SameCore t u →
      traverse_and_schedule t = traverse_and_schedule u := by
    intro t _ u hstu
    exact (sameCore_eq_results (pySize t) t u le_rfl hstu).2
  show (if ts.all isDict then
      match getKeys ts with
      | Except.error e => Except.error e
      | Except.ok ks =>
        if allComparable ks then travList traverse_and_schedule (sortDesc ltPri ts)
        else Except.error PyErr.typeError
    else Except.error PyErr.topLevelNotDicts) =
    (if us.all isDict then
      match getKeys us with
      | Except.error e => Except.error e
      | Except.ok ks =>
        if allComparable ks then travList traverse_and_schedule (sortDesc ltPri us)
        else Except.error PyErr.typeError
    else Except.error PyErr.topLevelNotDicts)
  rw [relList_all_isDict h, getKeys_rel h, travList_rel (sortDesc_rel h) hteq]

/-- C8 witness: instantiating `c8_unknown_fields_ignored` at two one-node
hierarchies whose nodes differ only in an id field and an extra field. -/
theorem c8_unknown_fields_ignored_witness :
    schedule_tasks (PyVal.list [PyVal.dict [("id", PyVal.int 1), ("name", PyVal.str "a")]]) =
      schedule_tasks (PyVal.list [PyVal.dict [("name", PyVal.str "a"), ("extra", PyVal.str "z")]]) :=
  @c8_unknown_fields_ignored
    [PyVal.dict [("id", PyVal.int 1), ("name", PyVal.str "a")]]
    [PyVal.dict [("name", PyVal.str "a"), ("extra", PyVal.str "z")]]
    ⟨⟨rfl, rfl, trivial⟩, trivial⟩
